import Mathlib

/-!
Verification of the GEMA track-metadata extractor (src/main.rs) against its
natural-language specification.

Shallow embedding conventions:
* Rust `String` / `&str` values are modelled as `List Char` (`Gema.Str`);
  character classification (`is_digit`, `is_alphabetic`, `is_uppercase`,
  case mapping) is modelled with Lean's ASCII `Char` predicates, which agree
  with Rust on the ASCII range exercised here.
* Rust `f64` values are modelled as exact rationals `ℚ`; `str::parse::<f64>`
  is modelled by `Gema.parseRat`, which follows the documented grammar of
  Rust's float parser (sign, digits, optional fraction, optional exponent)
  with exact rational value.  The `inf`/`nan` alternatives are omitted: every
  string this program feeds to the float parser contains a `.`, and no string
  containing `.` matches those alternatives.  `f64::round` (half away from
  zero) is `Gema.rustRound`; the `as i64` cast is modelled as `ℤ` (the
  saturating behaviour outside the i64 range is not exercised).
* Rust `i64` `/` and `%` are `Int.tdiv` / `Int.tmod` (truncated division,
  remainder with the dividend's sign), matching Rust semantics.
* The `HashMap` of label codes is modelled as an association list in
  iteration order, and the diagnostic log as a list of `Gema.Diag` values
  (one constructor per distinct diagnostic the parser can emit).
* File I/O is modelled away: `parse_text_file` takes the file's lines as a
  `List Str`, and the registry / error log are passed and returned
  explicitly instead of living in the mutable app struct.
-/

namespace Gema

/-- Rust strings are modelled as lists of characters. -/
abbrev Str := List Char

/-- Model of `base.replace('_', " ")` from `parse_track_filename`. -/
def underscoreToSpace (s : Str) : Str :=
  s.map fun c => if c = '_' then ' ' else c

/-- Model of `duration_str.replace(':', ".")` from `parse_duration`. -/
def colonToDot (s : Str) : Str :=
  s.map fun c => if c = ':' then '.' else c

/-- Model of Rust `str::to_lowercase` (ASCII range). -/
def toLowerStr (s : Str) : Str := s.map Char.toLower

/-- Model of Rust `str::to_uppercase` (ASCII range). -/
def toUpperStr (s : Str) : Str := s.map Char.toUpper

/-- Model of Rust `str::trim`: drop whitespace from both ends. -/
def trimStr (s : Str) : Str :=
  ((s.dropWhile Char.isWhitespace).reverse.dropWhile Char.isWhitespace).reverse

/-- Split a character list at every character satisfying `p`, keeping empty
pieces, exactly like Rust's `str::split`.  The result is always non-empty. -/
def rsplitP (p : Char → Bool) : Str → List Str
  | [] => [[]]
  | c :: rest =>
    if p c then [] :: rsplitP p rest
    else
      match rsplitP p rest with
      | [] => [[c]]
      | piece :: ps => (c :: piece) :: ps

/-- Model of Rust `str::split(sep)` for a single separator character. -/
def rsplit (sep : Char) (s : Str) : List Str :=
  rsplitP (fun c => c = sep) s

/-- Model of Rust `str::split_whitespace`: split on whitespace and drop the
empty pieces. -/
def splitWs (s : Str) : List Str :=
  (rsplitP Char.isWhitespace s).filter fun t => !t.isEmpty

/-- Model of `GemaLauncherApp::remove_extension`:
`filename.split('.').next().unwrap_or("")`. -/
def remove_extension (filename : Str) : Str :=
  (rsplit '.' filename).headD []

/-- Model of the local `contains_digit` in `parse_track_filename`:
`t.chars().any(|ch| ch.is_digit(10))`. -/
def contains_digit (t : Str) : Bool :=
  t.any Char.isDigit

/-- Model of the local `is_upper_token` in `parse_track_filename`:
every alphabetic character is uppercase, and there is at least one
alphabetic character. -/
def is_upper_token (t : Str) : Bool :=
  (t.filter Char.isAlpha).all Char.isUpper && t.any Char.isAlpha

/-- The four states of the token-classification machine, matching the
string-valued `state` variable of `parse_track_filename`. -/
inductive TState
  | beforeDigit
  | afterDigitBeforeTitle
  | title
  | artist
deriving DecidableEq

/-- The classification loop of `parse_track_filename`: starting in `st`,
walk the tokens left to right and return the `(index, title, artist)` token
groups.  This is the recursive rendering of the `for t in tokens` loop with
its three mutable `Vec`s (each recursive call returns the groups collected
over the remaining tokens, with the current token consed onto its group). -/
def classify : TState → List Str → List Str × List Str × List Str
  | _, [] => ([], [], [])
  | .beforeDigit, t :: rest =>
    let st' := if contains_digit t then TState.afterDigitBeforeTitle else TState.beforeDigit
    let r := classify st' rest
    (t :: r.1, r.2.1, r.2.2)
  | .afterDigitBeforeTitle, t :: rest =>
    if is_upper_token t then
      let r := classify TState.title rest
      (r.1, t :: r.2.1, r.2.2)
    else
      let r := classify TState.afterDigitBeforeTitle rest
      (t :: r.1, r.2.1, r.2.2)
  | .title, t :: rest =>
    if is_upper_token t then
      let r := classify TState.title rest
      (r.1, t :: r.2.1, r.2.2)
    else
      let r := classify TState.artist rest
      (r.1, r.2.1, t :: r.2.2)
  | .artist, t :: rest =>
    let r := classify TState.artist rest
    (r.1, r.2.1, t :: r.2.2)

/-- Model of `GemaLauncherApp::parse_track_filename`: strip the extension,
replace underscores with spaces, split on whitespace, classify the tokens,
and return the three groups joined (index with underscores, title and artist
with spaces) and lowercased. -/
def parse_track_filename (filename : Str) : Str × Str × Str :=
  let base := underscoreToSpace (remove_extension filename)
  let tokens := splitWs base
  let r := classify TState.beforeDigit tokens
  (toLowerStr (List.intercalate ['_'] r.1),
   toLowerStr (List.intercalate [' '] r.2.1),
   toLowerStr (List.intercalate [' '] r.2.2))

/-- Token group labels used by the specification-side rendering of the
classifier (spec section 9 asks for a pure transition function
`(state, token) → (state, group-assignment)`). -/
inductive TokenGroup
  | idx
  | tit
  | art
deriving DecidableEq

/-- Modelled from the spec (sections 4.1 and 9): the pure transition
function of the four-state machine, returning the next state and the group
the token is assigned to. -/
def specStep (st : TState) (t : Str) : TState × TokenGroup :=
  match st with
  | .beforeDigit =>
    (if contains_digit t then TState.afterDigitBeforeTitle else TState.beforeDigit, .idx)
  | .afterDigitBeforeTitle =>
    if is_upper_token t then (TState.title, .tit) else (TState.afterDigitBeforeTitle, .idx)
  | .title =>
    if is_upper_token t then (TState.title, .tit) else (TState.artist, .art)
  | .artist => (TState.artist, .art)

/-- Modelled from the spec: run the transition function over the token
sequence, labelling every token with its assigned group. -/
def specAssign : TState → List Str → List (Str × TokenGroup)
  | _, [] => []
  | st, t :: rest =>
    let r := specStep st t
    (t, r.2) :: specAssign r.1 rest

/-- Modelled from the spec (section 4.1 contract): normalize the basename,
label every token via the transition function, and render the three groups
(tokens of each group in input order) lowercased, index joined with
underscores, title and artist with single spaces. -/
def specTokenize (filename : Str) : Str × Str × Str :=
  let base := underscoreToSpace (remove_extension filename)
  let tokens := splitWs base
  let asg := specAssign TState.beforeDigit tokens
  let grp := fun (g : TokenGroup) => (asg.filter fun pr => decide (pr.2 = g)).map Prod.fst
  (toLowerStr (List.intercalate ['_'] (grp .idx)),
   toLowerStr (List.intercalate [' '] (grp .tit)),
   toLowerStr (List.intercalate [' '] (grp .art)))

/-- Value of an ASCII digit string, most significant first (the usual
decimal fold). -/
def digitsVal (ds : Str) : ℕ :=
  ds.foldl (fun n c => 10 * n + (c.toNat - 48)) 0

/-- ASCII digit character for a value below ten. -/
def digitChar (n : ℕ) : Char :=
  Char.ofNat (48 + n)

/-- Decimal digit expansion of a positive natural number, accumulator style,
with explicit fuel so that the definition is structurally recursive (the
fuel is always instantiated with the number itself, which suffices since
`n / 10 < n` for positive `n`). -/
def natToDigitsAux : ℕ → ℕ → Str → Str
  | _, 0, acc => acc
  | 0, _ + 1, acc => acc
  | fuel + 1, n + 1, acc =>
    natToDigitsAux fuel ((n + 1) / 10) (digitChar ((n + 1) % 10) :: acc)

/-- Decimal rendering of a natural number, as produced by Rust's `Display`
for non-negative integers. -/
def natToDigits (n : ℕ) : Str :=
  if n = 0 then ['0'] else natToDigitsAux n n []

/-- Model of Rust's `Display` for `i64` (the `{}` placeholder). -/
def fmtInt (z : ℤ) : Str :=
  if z < 0 then '-' :: natToDigits z.natAbs else natToDigits z.natAbs

/-- Model of Rust's `{:02}` placeholder for `i64`: pad with zeros (after the
sign) until the rendering is at least two characters wide. -/
def pad2 (z : ℤ) : Str :=
  let ds := natToDigits z.natAbs
  if z < 0 then '-' :: ds
  else if ds.length < 2 then '0' :: ds else ds

/-- Exponent suffix of Rust's float grammar: the empty string contributes
exponent 0, otherwise `e`/`E`, an optional sign, and at least one digit
consuming the rest of the string. -/
def parseExp (s : Str) : Option ℤ :=
  if s = [] then some 0
  else if s.headD ' ' = 'e' ∨ s.headD ' ' = 'E' then
    let r := s.tail
    let sgn : ℤ := if r.headD ' ' = '-' then -1 else 1
    let r1 := if r.headD ' ' = '-' ∨ r.headD ' ' = '+' then r.tail else r
    if r1.takeWhile Char.isDigit ≠ [] ∧ r1.dropWhile Char.isDigit = [] then
      some (sgn * (digitsVal (r1.takeWhile Char.isDigit) : ℤ))
    else none
  else none

/-- Model of `str::parse::<f64>` with exact rational value: an optional
sign, then integer digits, an optional fraction introduced by a dot, and an
optional exponent, the whole string consumed.  There must be at least one
digit in the mantissa.  The `inf`/`infinity`/`nan` alternatives of Rust's
grammar are omitted; no string containing a dot matches them, and every
string this program parses contains a dot. -/
def parseRat (s : Str) : Option ℚ :=
  let sgn : ℚ := if s.headD ' ' = '-' then -1 else 1
  let s1 := if s.headD ' ' = '-' ∨ s.headD ' ' = '+' then s.tail else s
  let ip := s1.takeWhile Char.isDigit
  let r1 := s1.dropWhile Char.isDigit
  if r1.headD ' ' = '.' then
    let r2 := r1.tail
    let fp := r2.takeWhile Char.isDigit
    let r3 := r2.dropWhile Char.isDigit
    if ip = [] ∧ fp = [] then none
    else
      match parseExp r3 with
      | none => none
      | some e => some (sgn * ((digitsVal ip : ℚ) + (digitsVal fp : ℚ) / 10 ^ fp.length) * 10 ^ e)
  else
    if ip = [] then none
    else
      match parseExp r1 with
      | none => none
      | some e => some (sgn * (digitsVal ip : ℚ) * 10 ^ e)

/-- Model of `GemaLauncherApp::parse_duration`: replace every colon with a
dot, split on dots, require at least two parts, and parse
`"{parts[0]}.{parts[1]}"` as a float. -/
def parse_duration (duration_str : Str) : Option ℚ :=
  let parts := rsplit '.' (colonToDot duration_str)
  if parts.length < 2 then none
  else parseRat (parts.getD 0 [] ++ '.' :: parts.getD 1 [])

/-- Model of `f64::round`: round half away from zero, as an integer. -/
def rustRound (q : ℚ) : ℤ :=
  if q < 0 then -⌊-q + 1 / 2⌋ else ⌊q + 1 / 2⌋

/-- Model of `GemaLauncherApp::format_duration`: round the seconds value to
hundredths, split with truncated i64 division and remainder, and render
`"{s}:{ms:02}"`. -/
def format_duration (seconds : ℚ) : Str :=
  let total_hundredths := rustRound (seconds * 100)
  let s := total_hundredths.tdiv 100
  let ms := total_hundredths.tmod 100
  fmtInt s ++ ':' :: pad2 ms

/-- Model of `GemaLauncherApp::find_label_code`: walk the label table in
iteration order and return the code of the first entry whose prefix starts
the uppercased index string; empty string when no entry matches. -/
def find_label_code (label_dict : List (Str × Str)) (index_str : Str) : Str :=
  match label_dict with
  | [] => []
  | (label, code) :: rest =>
    if label.isPrefixOf (toUpperStr index_str) then code
    else find_label_code rest index_str

/-- Model of the `TrackInfo` struct. -/
structure TrackInfo where
  index : Str
  titel : Str
  kuenstler : Str
  duration : Option ℚ
  label_code : Str
deriving DecidableEq

/-- Diagnostics `parse_text_file` can append to the error log, one
constructor per distinct message. -/
inductive Diag
  | emptyFile
  | countMismatch
  | invalidDuration (dur track : Str)
deriving DecidableEq

/-- Model of the registry update inside `parse_text_file`'s pair loop: if a
record with the same `(index, titel, kuenstler)` triple exists, add the new
duration to its duration (`map(|d| d + duration).or(Some(duration))`),
otherwise push a fresh record carrying the duration and label code. -/
def add_or_update_track (tracks : List TrackInfo) (index titel kuenstler : Str)
    (duration : ℚ) (label_code : Str) : List TrackInfo :=
  match tracks with
  | [] => [⟨index, titel, kuenstler, some duration, label_code⟩]
  | t :: rest =>
    if t.index = index ∧ t.titel = titel ∧ t.kuenstler = kuenstler then
      { t with duration := match t.duration with
                           | some d => some (d + duration)
                           | none => some duration } :: rest
    else t :: add_or_update_track rest index titel kuenstler duration label_code

/-- Model of the `for (track, duration_str) in track_duration_pairs` loop of
`parse_text_file`: tokenize the track text, parse the duration, log a
diagnostic and skip the pair when the duration fails to parse, otherwise
resolve the label code and upsert into the registry. -/
def process_pairs (label_dict : List (Str × Str)) :
    List (Str × Str) → List TrackInfo → List Diag → List TrackInfo × List Diag
  | [], tracks, errors => (tracks, errors)
  | (track, duration_str) :: rest, tracks, errors =>
    let r := parse_track_filename track
    match parse_duration duration_str with
    | none =>
      process_pairs label_dict rest tracks (errors ++ [Diag.invalidDuration duration_str track])
    | some duration =>
      let label_code := find_label_code label_dict r.1
      process_pairs label_dict rest
        (add_or_update_track tracks r.1 r.2.1 r.2.2 duration label_code) errors

/-- Model of the enumerated `all` closure of the alternating-layout check:
every line at an odd position (counting from `i`) contains a colon. -/
def odd_lines_have_colon : ℕ → List Str → Bool
  | _, [] => true
  | i, line :: rest =>
    (if i % 2 = 1 then line.contains ':' else true) && odd_lines_have_colon (i + 1) rest

/-- Model of the `is_alternating` test of `parse_text_file`: even line count
and every odd-position line contains a colon. -/
def is_alternating (lines : List Str) : Bool :=
  decide (lines.length % 2 = 0) && odd_lines_have_colon 0 lines

/-- Model of the alternating-layout pairing loop (`step_by(2)`), trimming
both lines of each pair. -/
def alt_pairs : List Str → List (Str × Str)
  | a :: b :: rest => (trimStr a, trimStr b) :: alt_pairs rest
  | _ => []

/-- Model of `GemaLauncherApp::parse_text_file` on the file's lines: report
an empty file; otherwise detect the layout, build the track/duration pairs
(aborting with a count-mismatch diagnostic when the block halves differ in
length), and process the pairs against the registry and error log. -/
def parse_text_file (label_dict : List (Str × Str)) (lines : List Str)
    (tracks : List TrackInfo) (errors : List Diag) : List TrackInfo × List Diag :=
  if lines.isEmpty then (tracks, errors ++ [Diag.emptyFile])
  else if is_alternating lines then
    process_pairs label_dict (alt_pairs lines) tracks errors
  else
    let half := lines.length / 2
    let tr := lines.take half
    let du := lines.drop half
    if tr.length ≠ du.length then (tracks, errors ++ [Diag.countMismatch])
    else
      process_pairs label_dict ((tr.zip du).map fun p => (trimStr p.1, trimStr p.2))
        tracks errors

/-- Record-level monotonicity relation: same identity triple, and a present
duration can only grow. -/
def track_le (o n : TrackInfo) : Prop :=
  o.index = n.index ∧ o.titel = n.titel ∧ o.kuenstler = n.kuenstler ∧
    ∀ q : ℚ, o.duration = some q → ∃ q' : ℚ, n.duration = some q' ∧ q ≤ q'

/-- Registry-level monotonicity relation: the old records survive in place
(possibly followed by newly appended records) with `track_le` holding
pointwise. -/
def registry_le (ts ts' : List TrackInfo) : Prop :=
  ts.length ≤ ts'.length ∧ List.Forall₂ track_le ts (ts'.take ts.length)

/-! Lemmas about the token classifier. -/

/-- From the `ARTIST` state every remaining token goes to the artist group. -/
theorem classify_artist_eq (ts : List Str) :
    classify TState.artist ts = ([], [], ts) := by
  induction ts with
  | nil => rfl
  | cons t rest ih => simp [classify, ih]

/-- From the `TITLE` state the index group stays empty. -/
theorem classify_title_idx_nil (ts : List Str) :
    (classify TState.title ts).1 = [] := by
  induction ts with
  | nil => rfl
  | cons t rest ih =>
    by_cases h : is_upper_token t <;>
      simp [classify, h, ih, classify_artist_eq]

/-- Concatenating the three groups produced by the classifier, in order,
recovers the token sequence exactly, from any start state. -/
theorem classify_concat (st : TState) (ts : List Str) :
    (classify st ts).1 ++ (classify st ts).2.1 ++ (classify st ts).2.2 = ts := by
  induction ts generalizing st with
  | nil => cases st <;> simp [classify]
  | cons t rest ih =>
    cases st with
    | beforeDigit => simpa [classify] using ih _
    | afterDigitBeforeTitle =>
      by_cases h : is_upper_token t
      · have hnil := classify_title_idx_nil rest
        have := ih TState.title
        simp [classify, h, hnil] at this ⊢
        simpa using this
      · simpa [classify, h] using ih TState.afterDigitBeforeTitle
    | title =>
      by_cases h : is_upper_token t
      · have hnil := classify_title_idx_nil rest
        have := ih TState.title
        simp [classify, h, hnil] at this ⊢
        simpa using this
      · simp [classify, h, classify_artist_eq]
    | artist => simp [classify, classify_artist_eq]

/-- The imperative classifier computes exactly the per-group selections of
the specification-side labelled run. -/
theorem classify_eq_specAssign (st : TState) (ts : List Str) :
    classify st ts =
      (((specAssign st ts).filter fun pr => decide (pr.2 = TokenGroup.idx)).map Prod.fst,
       ((specAssign st ts).filter fun pr => decide (pr.2 = TokenGroup.tit)).map Prod.fst,
       ((specAssign st ts).filter fun pr => decide (pr.2 = TokenGroup.art)).map Prod.fst) := by
  induction ts generalizing st with
  | nil => cases st <;> rfl
  | cons t rest ih =>
    cases st with
    | beforeDigit =>
      by_cases h : contains_digit t <;>
        simp [classify, specAssign, specStep, h, ih]
    | afterDigitBeforeTitle =>
      by_cases h : is_upper_token t <;>
        simp [classify, specAssign, specStep, h, ih]
    | title =>
      by_cases h : is_upper_token t <;>
        simp [classify, specAssign, specStep, h, ih]
    | artist => simp [classify, specAssign, specStep, ih]

/-- Claim C1: for every input string, the tokenizer strips the extension,
replaces underscores with spaces, splits on whitespace, classifies the
tokens by the four-state machine described in the spec (with the upper-token
and digit tests as stated, including the sharp edge that a digit-only token
is not an upper token), and returns the three groups lowercased, the index
joined with underscores and title/artist with single spaces: the source
function coincides with the machine modelled from the spec's words. -/
theorem tokenizer_matches_spec_machine (filename : Str) :
    parse_track_filename filename = specTokenize filename := by
  simp [parse_track_filename, specTokenize, classify_eq_specAssign]

/-- Claim C2: every whitespace token of the normalized basename lands in
exactly one of the three groups, with relative order preserved: the
concatenation of the index, title and artist token groups is exactly the
token sequence. -/
theorem token_groups_partition (filename : Str) :
    (classify TState.beforeDigit (splitWs (underscoreToSpace (remove_extension filename)))).1 ++
      (classify TState.beforeDigit (splitWs (underscoreToSpace (remove_extension filename)))).2.1 ++
      (classify TState.beforeDigit (splitWs (underscoreToSpace (remove_extension filename)))).2.2 =
      splitWs (underscoreToSpace (remove_extension filename)) :=
  classify_concat _ _

/-! Lemmas about `remove_extension`. -/

/-- Rust's `split` always yields at least one piece. -/
theorem rsplitP_ne_nil (p : Char → Bool) (s : Str) : rsplitP p s ≠ [] := by
  induction s with
  | nil => simp [rsplitP]
  | cons c rest ih =>
    by_cases h : p c
    · simp [rsplitP, h]
    · simp only [rsplitP, h]
      cases hsp : rsplitP p rest with
      | nil => simp
      | cons piece ps => simp

/-- The first piece of `split('.')` is the longest dot-free initial
segment. -/
theorem remove_extension_eq_takeWhile (s : Str) :
    remove_extension s = s.takeWhile fun c => c != '.' := by
  induction s with
  | nil => rfl
  | cons c rest ih =>
    by_cases h : c = '.'
    · simp [remove_extension, rsplit, rsplitP, h, List.takeWhile]
    · simp only [remove_extension, rsplit, rsplitP, decide_eq_true_eq, h, if_false] at ih ⊢
      cases hsp : rsplitP (fun x => decide (x = '.')) rest with
      | nil => exact absurd hsp (rsplitP_ne_nil _ _)
      | cons piece ps =>
        simp only [hsp, List.headD_cons] at ih ⊢
        have hb : (c != '.') = true := by simp [h]
        simp [List.takeWhile, hb, ih]

/-- Claim C10: `remove_extension` returns the substring strictly before the
first dot (whole string when dot-free, empty when the string starts with a
dot), and `parse_track_filename` therefore only sees the characters of the
track text before its first dot. -/
theorem remove_extension_truncates_at_first_dot (s : Str) :
    remove_extension s = s.takeWhile (fun c => c != '.') ∧
      parse_track_filename s = parse_track_filename (s.takeWhile fun c => c != '.') := by
  refine ⟨remove_extension_eq_takeWhile s, ?_⟩
  have hsame : remove_extension (s.takeWhile fun c => c != '.') = remove_extension s := by
    rw [remove_extension_eq_takeWhile, remove_extension_eq_takeWhile]
    rw [List.takeWhile_eq_self_iff.mpr]
    intro x hx
    exact List.mem_takeWhile_imp (p := fun c => c != '.') hx
  simp only [parse_track_filename, hsame]

/-! Lemmas about `find_label_code`. -/

/-- The label resolver is the first-match lookup over the table, keyed by
the uppercased index. -/
theorem find_label_code_eq_find? (dict : List (Str × Str)) (idx : Str) :
    find_label_code dict idx =
      ((dict.find? fun e => e.1.isPrefixOf (toUpperStr idx)).map Prod.snd).getD [] := by
  induction dict with
  | nil => rfl
  | cons e rest ih =>
    by_cases h : e.1.isPrefixOf (toUpperStr idx)
    · cases e with
      | mk label code => simp_all [find_label_code, List.find?_cons_of_pos]
    · cases e with
      | mk label code =>
        simp only [List.isPrefixOf] at h
        simp_all [find_label_code, List.find?_cons_of_neg]

/-- Claim C8, amended: `find_label_code` returns the code of the first
table entry whose prefix literally starts the UPPERCASED index string — the
lookup is insensitive to the casing of the index (only its uppercased form
matters) but requires the stored prefix in its exact (uppercase) form — and
returns the empty string, never an error, when no entry matches. -/
theorem find_label_code_first_upper_match (dict : List (Str × Str)) (idx idx' : Str) :
    (find_label_code dict idx =
        ((dict.find? fun e => e.1.isPrefixOf (toUpperStr idx)).map Prod.snd).getD []) ∧
      ((∀ e ∈ dict, e.1.isPrefixOf (toUpperStr idx) = false) →
        find_label_code dict idx = []) ∧
      (toUpperStr idx' = toUpperStr idx →
        find_label_code dict idx' = find_label_code dict idx) := by
  refine ⟨find_label_code_eq_find? dict idx, ?_, ?_⟩
  · intro h
    rw [find_label_code_eq_find? dict idx, List.find?_eq_none.mpr]
    · rfl
    · intro e he
      simp [h e he]
  · intro h
    rw [find_label_code_eq_find? dict idx, find_label_code_eq_find? dict idx', h]

/-- Witness for C8's amended theorem at a concrete table and index: a
non-matching table yields the empty code, and recasing the index does not
change the result. -/
theorem find_label_code_first_upper_match_witness :
    find_label_code [(['X'], ['c'])] ['a', 'b'] = [] ∧
      find_label_code [(['X'], ['c'])] ['A', 'b'] = find_label_code [(['X'], ['c'])] ['a', 'b'] :=
  ⟨(find_label_code_first_upper_match [(['X'], ['c'])] ['a', 'b'] ['A', 'b']).2.1 (by decide),
   (find_label_code_first_upper_match [(['X'], ['c'])] ['a', 'b'] ['A', 'b']).2.2 (by decide)⟩

/-- Counterexample to C8 as stated: the match is NOT case-insensitive in
the table prefix.  The entry ("ab", "x") matches the index "ab"
case-insensitively (here even literally), yet `find_label_code` returns the
empty string, because only the index is uppercased and the lowercase stored
prefix "ab" never starts the uppercased index "AB". -/
theorem find_label_code_lowercase_entry_misses :
    find_label_code [(['a', 'b'], ['x'])] ['a', 'b'] = [] ∧ ([] : Str) ≠ ['x'] := by
  decide

/-! Lemmas about the listing-layout detection and pairing. -/

/-- Indexed reading of the enumerated colon check. -/
theorem odd_lines_have_colon_iff (lines : List Str) (start : ℕ) :
    odd_lines_have_colon start lines = true ↔
      ∀ j, j < lines.length → (start + j) % 2 = 1 →
        (lines.getD j []).contains ':' = true := by
  induction lines generalizing start with
  | nil => simp [odd_lines_have_colon]
  | cons l rest ih =>
    simp only [odd_lines_have_colon, Bool.and_eq_true, ih (start + 1), List.length_cons]
    constructor
    · rintro ⟨h1, h2⟩ j hj hodd
      cases j with
      | zero =>
        rw [Nat.add_zero] at hodd
        rw [if_pos hodd] at h1
        simpa [List.getD_cons_zero] using h1
      | succ j' =>
        have := h2 j' (by omega) (by omega)
        simpa [List.getD_cons_succ] using this
    · intro h
      constructor
      · by_cases hs : start % 2 = 1
        · rw [if_pos hs]
          simpa using h 0 (by omega) (by omega)
        · rw [if_neg hs]
      · intro j hj hodd
        have := h (j + 1) (by omega) (by omega)
        simpa [List.getD_cons_succ] using this

/-- On an even-length line list, the alternating pairing takes lines
`(2k, 2k+1)` for each `k` below half the length, trimmed. -/
theorem alt_pairs_eq_range (lines : List Str) (h : lines.length % 2 = 0) :
    alt_pairs lines = (List.range (lines.length / 2)).map
      fun k => (trimStr (lines.getD (2 * k) []), trimStr (lines.getD (2 * k + 1) [])) := by
  induction lines using alt_pairs.induct with
  | case1 a b rest ih =>
    simp only [List.length_cons] at h ⊢
    have hrest : rest.length % 2 = 0 := by omega
    have hdiv : (rest.length + 1 + 1) / 2 = rest.length / 2 + 1 := by omega
    rw [alt_pairs, ih hrest, hdiv, List.range_succ_eq_map, List.map_cons, List.map_map]
    refine congrArg₂ _ (by simp) ?_
    refine List.map_congr_left fun k _ => ?_
    have h2 : 2 * Nat.succ k = 2 * k + 1 + 1 := by omega
    have h3 : 2 * Nat.succ k + 1 = 2 * k + 1 + 1 + 1 := by omega
    simp only [Function.comp_apply, h2, h3, List.getD_cons_succ]
  | case2 x hx =>
    match x, hx with
    | [], _ => rfl
    | [a], _ => simp at h
    | a :: b :: rest, hx => exact (hx a b rest rfl).elim

/-- Claim C4: for a non-empty line list, the listing is classified
alternating iff the line count is even and every line at an odd 0-indexed
position contains a colon; and in that case the pairs are
(line 0, line 1), (line 2, line 3), ..., trimmed. -/
theorem alternating_layout_detection (lines : List Str) (_h : lines ≠ []) :
    (is_alternating lines = true ↔
      lines.length % 2 = 0 ∧
        ∀ i, i < lines.length → i % 2 = 1 → (lines.getD i []).contains ':' = true) ∧
      (is_alternating lines = true →
        alt_pairs lines = (List.range (lines.length / 2)).map
          fun k => (trimStr (lines.getD (2 * k) []), trimStr (lines.getD (2 * k + 1) []))) := by
  constructor
  · rw [is_alternating, Bool.and_eq_true, decide_eq_true_eq, odd_lines_have_colon_iff]
    simp only [Nat.zero_add]
  · intro halt
    refine alt_pairs_eq_range lines ?_
    rw [is_alternating, Bool.and_eq_true, decide_eq_true_eq] at halt
    exact halt.1

/-- Witness for C4 on the spec's sample listing
["TrackA", "1:30", "TrackB", "2:00"]. -/
theorem alternating_layout_detection_witness :
    alt_pairs [['T', 'r', 'a', 'c', 'k', 'A'], ['1', ':', '3', '0'],
        ['T', 'r', 'a', 'c', 'k', 'B'], ['2', ':', '0', '0']] =
      (List.range ([['T', 'r', 'a', 'c', 'k', 'A'], ['1', ':', '3', '0'],
          ['T', 'r', 'a', 'c', 'k', 'B'], ['2', ':', '0', '0']].length / 2)).map
        fun k => (trimStr ([['T', 'r', 'a', 'c', 'k', 'A'], ['1', ':', '3', '0'],
            ['T', 'r', 'a', 'c', 'k', 'B'], ['2', ':', '0', '0']].getD (2 * k) []),
          trimStr ([['T', 'r', 'a', 'c', 'k', 'A'], ['1', ':', '3', '0'],
            ['T', 'r', 'a', 'c', 'k', 'B'], ['2', ':', '0', '0']].getD (2 * k + 1) [])) :=
  (alternating_layout_detection _ (by decide)).2 (by decide)

/-- Claim C5: a non-empty, non-alternating listing is split at
floor(n / 2); with an odd line count the halves differ in length and the
file is skipped whole (registry unchanged, one count-mismatch diagnostic),
otherwise the halves are paired positionally and processed. -/
theorem block_layout_split (label_dict : List (Str × Str)) (lines : List Str)
    (tracks : List TrackInfo) (errors : List Diag)
    (h1 : lines ≠ []) (h2 : is_alternating lines = false) :
    (lines.length % 2 = 1 →
      parse_text_file label_dict lines tracks errors =
        (tracks, errors ++ [Diag.countMismatch])) ∧
      (lines.length % 2 = 0 →
        parse_text_file label_dict lines tracks errors =
          process_pairs label_dict
            (((lines.take (lines.length / 2)).zip (lines.drop (lines.length / 2))).map
              fun p => (trimStr p.1, trimStr p.2)) tracks errors) := by
  have hne : lines.isEmpty = false := by
    cases lines with
    | nil => exact absurd rfl h1
    | cons a l => rfl
  constructor
  · intro hodd
    rw [parse_text_file, hne, if_neg (by simp), h2, if_neg (by simp)]
    rw [if_pos]
    simp only [List.length_take, List.length_drop]
    omega
  · intro heven
    rw [parse_text_file, hne, if_neg (by simp), h2, if_neg (by simp)]
    rw [if_neg]
    simp only [List.length_take, List.length_drop, ne_eq, not_not]
    omega

/-- Witness for C5 on the three-line listing ["A", "B", "C"]: odd count,
not alternating, whole file skipped with a count-mismatch diagnostic. -/
theorem block_layout_split_witness :
    parse_text_file [] [['A'], ['B'], ['C']] [] [] = ([], [Diag.countMismatch]) :=
  (block_layout_split [] [['A'], ['B'], ['C']] [] [] (by decide) (by decide)).1 (by decide)

/-! Lemmas about splitting and character maps, feeding the duration codec. -/

/-- Splitting a separator-free string yields the single piece. -/
theorem rsplitP_no_sep (p : Char → Bool) (x : Str) (h : ∀ c ∈ x, p c = false) :
    rsplitP p x = [x] := by
  induction x with
  | nil => rfl
  | cons c rest ih =>
    have hc : p c = false := h c (by simp)
    rw [rsplitP, if_neg (by simp [hc]), ih fun d hd => h d (by simp [hd])]

/-- Splitting distributes over a separator occurrence: the pieces of
`x ++ sep :: y` are the pieces of `x` followed by the pieces of `y`. -/
theorem rsplitP_append (p : Char → Bool) (x y : Str) (c₀ : Char) (hc : p c₀ = true) :
    rsplitP p (x ++ c₀ :: y) = rsplitP p x ++ rsplitP p y := by
  induction x with
  | nil => simp [rsplitP, hc]
  | cons c rest ih =>
    by_cases h : p c
    · simp [rsplitP, h, ih]
    · rw [List.cons_append, rsplitP, if_neg (by simp [h]), ih,
        rsplitP, if_neg (by simp [h])]
      cases hsp : rsplitP p rest with
      | nil => exact absurd hsp (rsplitP_ne_nil _ _)
      | cons piece ps => simp

/-- Digits are unchanged by the colon-to-dot map. -/
theorem colonToDot_of_digits (x : Str) (h : ∀ c ∈ x, c.isDigit = true) :
    colonToDot x = x := by
  rw [colonToDot]
  refine (List.map_congr_left fun c hc => ?_).trans (List.map_id x)
  have : c ≠ ':' := fun he => by subst he; simpa using h ':' hc
  simp [this]

/-- takeWhile over an all-true block continues into the suffix. -/
theorem takeWhile_all_append (p : Char → Bool) (x y : Str) (h : ∀ c ∈ x, p c = true) :
    (x ++ y).takeWhile p = x ++ y.takeWhile p := by
  induction x with
  | nil => rfl
  | cons c rest ih =>
    rw [List.cons_append, List.takeWhile_cons, h c (by simp), if_pos rfl,
      ih fun d hd => h d (by simp [hd]), List.cons_append]

/-- dropWhile over an all-true block skips it entirely. -/
theorem dropWhile_all_append (p : Char → Bool) (x y : Str) (h : ∀ c ∈ x, p c = true) :
    (x ++ y).dropWhile p = y.dropWhile p := by
  induction x with
  | nil => rfl
  | cons c rest ih =>
    rw [List.cons_append, List.dropWhile_cons_of_pos (h c (by simp)),
      ih fun d hd => h d (by simp [hd])]

/-! Decimal digit strings and their values. -/

/-- Digit characters have the expected code point. -/
theorem digitChar_toNat : ∀ r : ℕ, r < 10 → (digitChar r).toNat = 48 + r := by decide

/-- Digit characters pass `Char.isDigit`. -/
theorem digitChar_isDigit : ∀ r : ℕ, r < 10 → (digitChar r).isDigit = true := by decide

/-- The digit accumulator only ever prepends to its accumulator. -/
theorem natToDigitsAux_append (fuel : ℕ) : ∀ (n : ℕ) (acc : Str),
    natToDigitsAux fuel n acc = natToDigitsAux fuel n [] ++ acc := by
  induction fuel with
  | zero => intro n acc; cases n <;> rfl
  | succ fuel ih =>
    intro n acc
    cases n with
    | zero => rfl
    | succ m =>
      rw [natToDigitsAux, natToDigitsAux, ih ((m + 1) / 10) [digitChar ((m + 1) % 10)],
        ih ((m + 1) / 10) (digitChar ((m + 1) % 10) :: acc), List.append_assoc]
      rfl

/-- Every character the digit accumulator produces is a digit. -/
theorem natToDigitsAux_digits (fuel : ℕ) : ∀ (n : ℕ) (c : Char),
    c ∈ natToDigitsAux fuel n [] → c.isDigit = true := by
  induction fuel with
  | zero => intro n c hc; cases n <;> simp [natToDigitsAux] at hc
  | succ fuel ih =>
    intro n c hc
    cases n with
    | zero => simp [natToDigitsAux] at hc
    | succ m =>
      rw [natToDigitsAux, natToDigitsAux_append] at hc
      rcases List.mem_append.mp hc with h | h
      · exact ih _ _ h
      · have : c = digitChar ((m + 1) % 10) := by simpa using h
        rw [this]
        exact digitChar_isDigit _ (Nat.mod_lt _ (by norm_num))

/-- Folding the decimal-value step over the digit expansion recovers the
number (relative to any fold seed). -/
theorem natToDigitsAux_foldl (fuel : ℕ) : ∀ n : ℕ, n ≤ fuel → ∀ v : ℕ,
    (natToDigitsAux fuel n []).foldl (fun m c => 10 * m + (c.toNat - 48)) v =
      v * 10 ^ (natToDigitsAux fuel n []).length + n := by
  induction fuel with
  | zero =>
    intro n hn v
    interval_cases n
    simp [natToDigitsAux]
  | succ fuel ih =>
    intro n hn v
    cases n with
    | zero => simp [natToDigitsAux]
    | succ m =>
      rw [natToDigitsAux, natToDigitsAux_append, List.foldl_append, List.length_append]
      rw [ih ((m + 1) / 10) (by omega) v]
      have hd : (digitChar ((m + 1) % 10)).toNat = 48 + (m + 1) % 10 :=
        digitChar_toNat _ (Nat.mod_lt _ (by norm_num))
      simp only [List.foldl_cons, List.foldl_nil, List.length_cons, List.length_nil, hd]
      have : 48 + (m + 1) % 10 - 48 = (m + 1) % 10 := by omega
      rw [this, pow_succ]
      have hsplit : 10 * ((m + 1) / 10) + (m + 1) % 10 = m + 1 := by omega
      ring_nf
      omega

/-- The decimal rendering of a natural number evaluates back to it. -/
theorem digitsVal_natToDigits (n : ℕ) : digitsVal (natToDigits n) = n := by
  rw [natToDigits]
  by_cases h : n = 0
  · simp [h, digitsVal]
  · rw [if_neg h, digitsVal, natToDigitsAux_foldl n n le_rfl 0]
    simp

/-- The decimal rendering consists of digit characters only. -/
theorem natToDigits_digits (n : ℕ) (c : Char) (hc : c ∈ natToDigits n) :
    c.isDigit = true := by
  rw [natToDigits] at hc
  by_cases h : n = 0
  · rw [if_pos h] at hc
    simp at hc
    rw [hc]
    decide
  · rw [if_neg h] at hc
    exact natToDigitsAux_digits n n c hc

/-- The decimal rendering is never empty. -/
theorem natToDigits_ne_nil (n : ℕ) : natToDigits n ≠ [] := by
  rw [natToDigits]
  by_cases h : n = 0
  · simp [h]
  · rw [if_neg h]
    cases n with
    | zero => exact absurd rfl h
    | succ m =>
      rw [natToDigitsAux, natToDigitsAux_append]
      simp

/-- A digit character is none of the structural characters of the float
grammar. -/
theorem isDigit_ne_special (c : Char) (h : c.isDigit = true) :
    c ≠ '.' ∧ c ≠ ':' ∧ c ≠ '-' ∧ c ≠ '+' := by
  refine ⟨?_, ?_, ?_, ?_⟩ <;>
    exact fun he => by subst he; exact absurd h (by decide)

/-- The colon-to-dot map distributes over append. -/
theorem colonToDot_append (x y : Str) :
    colonToDot (x ++ y) = colonToDot x ++ colonToDot y :=
  List.map_append _ x y

/-- Value of the float parser on a pure digits-dot-digits string. -/
theorem parseRat_digits (ip fp : Str) (hip : ip ≠ [])
    (hipd : ∀ c ∈ ip, c.isDigit = true) (hfpd : ∀ c ∈ fp, c.isDigit = true) :
    parseRat (ip ++ '.' :: fp) =
      some ((digitsVal ip : ℚ) + (digitsVal fp : ℚ) / 10 ^ fp.length) := by
  obtain ⟨c0, ipr, rfl⟩ : ∃ c0 ipr, ip = c0 :: ipr := by
    cases ip with
    | nil => exact absurd rfl hip
    | cons a l => exact ⟨a, l, rfl⟩
  have h0 : c0.isDigit = true := hipd c0 (by simp)
  have hm : c0 ≠ '-' := (isDigit_ne_special c0 h0).2.2.1
  have hp : c0 ≠ '+' := (isDigit_ne_special c0 h0).2.2.2
  have htw : ((c0 :: ipr) ++ '.' :: fp).takeWhile Char.isDigit = c0 :: ipr := by
    rw [takeWhile_all_append _ _ _ hipd, List.takeWhile_cons_of_neg (by decide),
      List.append_nil]
  have hdw : ((c0 :: ipr) ++ '.' :: fp).dropWhile Char.isDigit = '.' :: fp := by
    rw [dropWhile_all_append _ _ _ hipd, List.dropWhile_cons_of_neg (by decide)]
  have hfw : fp.takeWhile Char.isDigit = fp := List.takeWhile_eq_self_iff.mpr hfpd
  have hfd : fp.dropWhile Char.isDigit = [] := List.dropWhile_eq_nil_iff.mpr hfpd
  have hhead : ((c0 :: ipr) ++ '.' :: fp).headD ' ' = c0 := by
    rw [List.cons_append, List.headD_cons]
  simp only [parseRat]
  rw [hhead, if_neg hm, if_neg (show ¬(c0 = '-' ∨ c0 = '+') from by simp [hm, hp])]
  rw [htw, hdw, List.headD_cons, if_pos rfl, List.tail_cons, hfw, hfd,
    if_neg (by simp), show parseExp [] = some (0 : ℤ) from rfl]
  simp

/-- Parsing the canonical duration shape digits, colon, two digits. -/
theorem parse_duration_canonical (S a b : ℕ) (ha : a < 10) (hb : b < 10) :
    parse_duration (natToDigits S ++ ':' :: [digitChar a, digitChar b]) =
      some ((S : ℚ) + ((10 * a + b : ℕ) : ℚ) / 100) := by
  have hds := natToDigits_digits S
  have hfd : ∀ c ∈ [digitChar a, digitChar b], c.isDigit = true := by
    intro c hc
    rcases List.mem_pair.mp hc with rfl | rfl
    · exact digitChar_isDigit a ha
    · exact digitChar_isDigit b hb
  have hcd : colonToDot (natToDigits S ++ ':' :: [digitChar a, digitChar b]) =
      natToDigits S ++ '.' :: [digitChar a, digitChar b] := by
    rw [colonToDot_append, colonToDot_of_digits _ hds]
    have h1 : colonToDot (':' :: [digitChar a, digitChar b]) =
        '.' :: colonToDot [digitChar a, digitChar b] := by simp [colonToDot]
    rw [h1, colonToDot_of_digits _ hfd]
  have hsplit : rsplit '.' (natToDigits S ++ '.' :: [digitChar a, digitChar b]) =
      [natToDigits S, [digitChar a, digitChar b]] := by
    rw [rsplit, rsplitP_append _ _ _ _ (by simp),
      rsplitP_no_sep _ (natToDigits S)
        (fun c hc => by simp [(isDigit_ne_special c (hds c hc)).1]),
      rsplitP_no_sep _ [digitChar a, digitChar b]
        (fun c hc => by simp [(isDigit_ne_special c (hfd c hc)).1])]
    rfl
  have hval : digitsVal [digitChar a, digitChar b] = 10 * a + b := by
    simp only [digitsVal, List.foldl_cons, List.foldl_nil,
      digitChar_toNat a ha, digitChar_toNat b hb]
    omega
  simp only [parse_duration, hcd, hsplit]
  rw [if_neg (by simp)]
  simp only [List.getD_cons_zero, List.getD_cons_succ]
  rw [parseRat_digits _ _ (natToDigits_ne_nil S) hds hfd, digitsVal_natToDigits, hval]
  norm_num

/-- Rounding an integral rational is the identity. -/
theorem rustRound_natCast (n : ℕ) : rustRound ((n : ℕ) : ℚ) = (n : ℤ) := by
  rw [rustRound, if_neg (not_lt.mpr (by positivity))]
  rw [show ((n : ℕ) : ℚ) = ((n : ℤ) : ℚ) by push_cast; ring]
  rw [add_comm, Int.floor_add_int]
  norm_num

/-- Rust's `{}` on a non-negative i64 renders the decimal digits. -/
theorem fmtInt_natCast (n : ℕ) : fmtInt ((n : ℕ) : ℤ) = natToDigits n := by
  rw [fmtInt, if_neg (not_lt.mpr (by positivity))]
  simp

/-- Rust's `{:02}` on a two-digit value renders exactly the two digits. -/
theorem pad2_two_digits :
    ∀ a : ℕ, a < 10 → ∀ b : ℕ, b < 10 →
      pad2 (((10 * a + b : ℕ) : ℤ)) = [digitChar a, digitChar b] := by
  decide

/-- Formatting the canonical value recovers the canonical shape. -/
theorem format_duration_canonical (S a b : ℕ) (ha : a < 10) (hb : b < 10) :
    format_duration ((S : ℚ) + ((10 * a + b : ℕ) : ℚ) / 100) =
      natToDigits S ++ ':' :: [digitChar a, digitChar b] := by
  have hq : (((S : ℕ) : ℚ) + ((10 * a + b : ℕ) : ℚ) / 100) * 100 =
      ((100 * S + (10 * a + b) : ℕ) : ℚ) := by
    push_cast
    ring
  have h1 : ((100 * S + (10 * a + b) : ℕ) : ℤ).tdiv 100 = ((S : ℕ) : ℤ) := by
    rw [Int.tdiv_eq_ediv (by positivity) (by norm_num)]
    push_cast
    omega
  have h2 : ((100 * S + (10 * a + b) : ℕ) : ℤ).tmod 100 = (((10 * a + b : ℕ)) : ℤ) := by
    rw [Int.tmod_eq_emod (by positivity) (by norm_num)]
    push_cast
    omega
  simp only [format_duration, hq, rustRound_natCast, h1, h2, fmtInt_natCast]
  rw [pad2_two_digits a ha b hb]

/-- Claim C7: on every duration string of the canonical shape "S:FF" (the
decimal rendering of a natural number, a colon, exactly two decimal
digits), the codec round-trips exactly: parsing yields S + FF/100 seconds
and formatting that value reproduces the string. -/
theorem duration_roundtrip_canonical (S a b : ℕ) (ha : a < 10) (hb : b < 10) :
    parse_duration (natToDigits S ++ ':' :: [digitChar a, digitChar b]) =
        some ((S : ℚ) + ((10 * a + b : ℕ) : ℚ) / 100) ∧
      format_duration ((S : ℚ) + ((10 * a + b : ℕ) : ℚ) / 100) =
        natToDigits S ++ ':' :: [digitChar a, digitChar b] :=
  ⟨parse_duration_canonical S a b ha hb, format_duration_canonical S a b ha hb⟩

/-- Witness for C7 at the spec's example "12:34". -/
theorem duration_roundtrip_canonical_witness :
    parse_duration (natToDigits 12 ++ ':' :: [digitChar 3, digitChar 4]) =
        some ((12 : ℕ) + ((10 * 3 + 4 : ℕ) : ℚ) / 100) ∧
      format_duration ((12 : ℕ) + ((10 * 3 + 4 : ℕ) : ℚ) / 100) =
        natToDigits 12 ++ ':' :: [digitChar 3, digitChar 4] :=
  duration_roundtrip_canonical 12 3 4 (by decide) (by decide)

/-- With at least two parts, `parse_duration` is the float parse of the
first two parts joined by a dot. -/
theorem parse_duration_of_two_parts (s : Str)
    (h : 2 ≤ (rsplit '.' (colonToDot s)).length) :
    parse_duration s =
      parseRat ((rsplit '.' (colonToDot s)).getD 0 [] ++ '.' ::
        (rsplit '.' (colonToDot s)).getD 1 []) := by
  rw [parse_duration, if_neg (by omega)]

/-- Claim C6: `parse_duration` replaces colons by dots and splits on dots;
it returns no value exactly when there are fewer than two parts or the
string part0.part1 fails the float parse, and otherwise returns that
number, ignoring all parts beyond the second; in particular "3:7" parses to
3.7, "abc" fails, and "3.14.15" parses to 3.14. -/
theorem parse_duration_characterization (s extra : Str) :
    (parse_duration s = none ↔
        ((rsplit '.' (colonToDot s)).length < 2 ∨
          parseRat ((rsplit '.' (colonToDot s)).getD 0 [] ++ '.' ::
            (rsplit '.' (colonToDot s)).getD 1 []) = none)) ∧
      (2 ≤ (rsplit '.' (colonToDot s)).length →
        parse_duration (s ++ '.' :: extra) = parse_duration s) ∧
      parse_duration ['3', ':', '7'] = some (37 / 10) ∧
      parse_duration ['a', 'b', 'c'] = none ∧
      parse_duration ['3', '.', '1', '4', '.', '1', '5'] = some (157 / 50) := by
  refine ⟨?_, ?_, ?_, ?_, ?_⟩
  · by_cases h : (rsplit '.' (colonToDot s)).length < 2
    · simp [parse_duration, h]
    · simp [parse_duration, h]
  · intro h2
    have hmap : colonToDot (s ++ '.' :: extra) =
        colonToDot s ++ '.' :: colonToDot extra := by
      rw [colonToDot_append]
      rfl
    have hsp : rsplit '.' (colonToDot (s ++ '.' :: extra)) =
        rsplit '.' (colonToDot s) ++ rsplit '.' (colonToDot extra) := by
      rw [hmap, rsplit, rsplitP_append _ _ _ _ (by simp)]
      rfl
    have hlen : 2 ≤ (rsplit '.' (colonToDot (s ++ '.' :: extra))).length := by
      rw [hsp, List.length_append]
      omega
    have h0 : (rsplit '.' (colonToDot (s ++ '.' :: extra))).getD 0 [] =
        (rsplit '.' (colonToDot s)).getD 0 [] := by
      rw [hsp]
      exact List.getD_append _ _ _ 0 (by omega)
    have h1 : (rsplit '.' (colonToDot (s ++ '.' :: extra))).getD 1 [] =
        (rsplit '.' (colonToDot s)).getD 1 [] := by
      rw [hsp]
      exact List.getD_append _ _ _ 1 (by omega)
    rw [parse_duration_of_two_parts _ hlen, parse_duration_of_two_parts _ h2, h0, h1]
  · simp only [parse_duration]
    rw [show rsplit '.' (colonToDot ['3', ':', '7']) = [['3'], ['7']] from by decide]
    rw [if_neg (by decide)]
    simp only [List.getD_cons_zero, List.getD_cons_succ]
    rw [parseRat_digits ['3'] ['7'] (by decide) (by decide) (by decide)]
    rw [show digitsVal ['3'] = 3 from by decide, show digitsVal ['7'] = 7 from by decide]
    norm_num
  · simp only [parse_duration]
    rw [show rsplit '.' (colonToDot ['a', 'b', 'c']) = [['a', 'b', 'c']] from by decide]
    rw [if_pos (by decide)]
  · simp only [parse_duration]
    rw [show rsplit '.' (colonToDot ['3', '.', '1', '4', '.', '1', '5']) =
      [['3'], ['1', '4'], ['1', '5']] from by decide]
    rw [if_neg (by decide)]
    simp only [List.getD_cons_zero, List.getD_cons_succ]
    rw [parseRat_digits ['3'] ['1', '4'] (by decide) (by decide) (by decide)]
    rw [show digitsVal ['3'] = 3 from by decide,
      show digitsVal ['1', '4'] = 14 from by decide]
    norm_num

/-- Witness for C6: appending a third dot-part to "3.14" does not change
the parse. -/
theorem parse_duration_characterization_witness :
    parse_duration (['3', '.', '1', '4'] ++ '.' :: ['1', '5']) =
      parse_duration ['3', '.', '1', '4'] :=
  (parse_duration_characterization ['3', '.', '1', '4'] ['1', '5']).2.1 (by decide)

/-! Lemmas about the registry upsert. -/

/-- Upserting a triple that matches no record appends a fresh record. -/
theorem add_or_update_track_new (tracks : List TrackInfo) (index titel kuenstler : Str)
    (d : ℚ) (lc : Str)
    (h : ∀ r ∈ tracks, ¬(r.index = index ∧ r.titel = titel ∧ r.kuenstler = kuenstler)) :
    add_or_update_track tracks index titel kuenstler d lc =
      tracks ++ [⟨index, titel, kuenstler, some d, lc⟩] := by
  induction tracks with
  | nil => rfl
  | cons a rest ih =>
    rw [add_or_update_track, if_neg (h a (by simp)), ih fun r hr => h r (by simp [hr])]
    rfl

/-- Upserting a triple whose first match is `r` updates `r` in place,
adding the duration onto the existing one (absent counted as zero). -/
theorem add_or_update_track_existing (pre : List TrackInfo) (r : TrackInfo)
    (post : List TrackInfo) (index titel kuenstler : Str) (d : ℚ) (lc : Str)
    (hpre : ∀ r' ∈ pre, ¬(r'.index = index ∧ r'.titel = titel ∧ r'.kuenstler = kuenstler))
    (hr : r.index = index ∧ r.titel = titel ∧ r.kuenstler = kuenstler) :
    add_or_update_track (pre ++ r :: post) index titel kuenstler d lc =
      pre ++ { r with duration := some (r.duration.getD 0 + d) } :: post := by
  induction pre with
  | nil =>
    rw [List.nil_append, add_or_update_track, if_pos hr, List.nil_append]
    have hdur : (match r.duration with
        | some x => some (x + d)
        | none => some d) = some (r.duration.getD 0 + d) := by
      cases r.duration <;> simp
    rw [hdur]
  | cons p pre' ih =>
    rw [List.cons_append, add_or_update_track, if_neg (hpre p (by simp)),
      ih fun x hx => hpre x (by simp [hx])]
    rfl

/-- Claim C3: when a pair's tokenized triple equals the triple of a record
already in the registry, no new record is inserted: the parsed duration is
added to the existing record's duration (absent counted as zero); two pairs
with the identical triple yield one record with the sum of both durations;
a pair with an unseen triple appends a fresh record with its duration. -/
theorem registry_merge_semantics (tracks : List TrackInfo) (index titel kuenstler : Str)
    (d : ℚ) (lc : Str) :
    ((∀ r ∈ tracks, ¬(r.index = index ∧ r.titel = titel ∧ r.kuenstler = kuenstler)) →
        add_or_update_track tracks index titel kuenstler d lc =
          tracks ++ [⟨index, titel, kuenstler, some d, lc⟩]) ∧
      (∀ pre r post, tracks = pre ++ r :: post →
        (∀ r' ∈ pre, ¬(r'.index = index ∧ r'.titel = titel ∧ r'.kuenstler = kuenstler)) →
        (r.index = index ∧ r.titel = titel ∧ r.kuenstler = kuenstler) →
        add_or_update_track tracks index titel kuenstler d lc =
          pre ++ { r with duration := some (r.duration.getD 0 + d) } :: post) ∧
      (∀ (label_dict : List (Str × Str)) (track dur1 dur2 : Str) (d1 d2 : ℚ),
        parse_duration dur1 = some d1 → parse_duration dur2 = some d2 →
        process_pairs label_dict [(track, dur1), (track, dur2)] [] [] =
          ([⟨(parse_track_filename track).1, (parse_track_filename track).2.1,
            (parse_track_filename track).2.2, some (d1 + d2),
            find_label_code label_dict (parse_track_filename track).1⟩], [])) := by
  refine ⟨add_or_update_track_new tracks index titel kuenstler d lc, ?_, ?_⟩
  · intro pre r post htr hpre hr
    rw [htr]
    exact add_or_update_track_existing pre r post index titel kuenstler d lc hpre hr
  · intro label_dict track dur1 dur2 d1 d2 h1 h2
    simp only [process_pairs, h1, h2, add_or_update_track]
    simp

/-- Witness for C3: the same track text with durations "1:30" and "2:00"
merges into a single record carrying the summed duration. -/
theorem registry_merge_semantics_witness :
    process_pairs [] [(['A', '1'], natToDigits 1 ++ ':' :: [digitChar 3, digitChar 0]),
        (['A', '1'], natToDigits 2 ++ ':' :: [digitChar 0, digitChar 0])] [] [] =
      ([⟨(parse_track_filename ['A', '1']).1, (parse_track_filename ['A', '1']).2.1,
        (parse_track_filename ['A', '1']).2.2,
        some (((1 : ℕ) + ((10 * 3 + 0 : ℕ) : ℚ) / 100) +
          ((2 : ℕ) + ((10 * 0 + 0 : ℕ) : ℚ) / 100)),
        find_label_code [] (parse_track_filename ['A', '1']).1⟩], []) :=
  (registry_merge_semantics [] [] [] [] 0 []).2.2 [] ['A', '1'] _ _ _ _
    (parse_duration_canonical 1 3 0 (by decide) (by decide))
    (parse_duration_canonical 2 0 0 (by decide) (by decide))

/-! Monotonicity of durations across registry updates. -/

/-- track_le is reflexive. -/
theorem track_le_refl (t : TrackInfo) : track_le t t :=
  ⟨rfl, rfl, rfl, fun q hq => ⟨q, hq, le_refl q⟩⟩

/-- track_le is transitive. -/
theorem track_le_trans {a b c : TrackInfo} (h1 : track_le a b) (h2 : track_le b c) :
    track_le a c := by
  obtain ⟨hi1, ht1, hk1, hd1⟩ := h1
  obtain ⟨hi2, ht2, hk2, hd2⟩ := h2
  refine ⟨hi1.trans hi2, ht1.trans ht2, hk1.trans hk2, fun q hq => ?_⟩
  obtain ⟨q', hq', hle⟩ := hd1 q hq
  obtain ⟨q'', hq'', hle'⟩ := hd2 q' hq'
  exact ⟨q'', hq'', hle.trans hle'⟩

/-- Pointwise track_le on equal lists. -/
theorem forall₂_track_le_refl (l : List TrackInfo) : List.Forall₂ track_le l l := by
  induction l with
  | nil => exact List.Forall₂.nil
  | cons a rest ih => exact List.Forall₂.cons (track_le_refl a) ih

/-- Pointwise track_le composes. -/
theorem forall₂_track_le_trans {a b c : List TrackInfo}
    (h1 : List.Forall₂ track_le a b) (h2 : List.Forall₂ track_le b c) :
    List.Forall₂ track_le a c := by
  induction h1 generalizing c with
  | nil => cases h2; exact List.Forall₂.nil
  | cons hab h1' ih =>
    cases h2 with
    | cons hbc h2' => exact List.Forall₂.cons (track_le_trans hab hbc) (ih h2')

/-- registry_le is reflexive. -/
theorem registry_le_refl (ts : List TrackInfo) : registry_le ts ts :=
  ⟨le_refl _, by rw [List.take_length]; exact forall₂_track_le_refl ts⟩

/-- registry_le is transitive. -/
theorem registry_le_trans {a b c : List TrackInfo}
    (h1 : registry_le a b) (h2 : registry_le b c) : registry_le a c := by
  obtain ⟨hl1, hf1⟩ := h1
  obtain ⟨hl2, hf2⟩ := h2
  refine ⟨hl1.trans hl2, ?_⟩
  have hf2' := List.forall₂_take a.length hf2
  rw [List.take_take, min_eq_left hl1] at hf2'
  exact forall₂_track_le_trans hf1 hf2'

/-- A single upsert with a non-negative duration only grows durations. -/
theorem registry_le_add_or_update (tracks : List TrackInfo)
    (index titel kuenstler : Str) (d : ℚ) (lc : Str) (hd : 0 ≤ d) :
    registry_le tracks (add_or_update_track tracks index titel kuenstler d lc) := by
  induction tracks with
  | nil => exact ⟨by simp [add_or_update_track], by simp⟩
  | cons a rest ih =>
    rw [add_or_update_track]
    by_cases h : a.index = index ∧ a.titel = titel ∧ a.kuenstler = kuenstler
    · rw [if_pos h]
      refine ⟨by simp, ?_⟩
      rw [List.length_cons, List.take_succ_cons, List.take_length]
      refine List.Forall₂.cons ⟨rfl, rfl, rfl, fun q hq => ?_⟩ (forall₂_track_le_refl rest)
      refine ⟨q + d, ?_, le_add_of_nonneg_right hd⟩
      simp only [hq]
    · rw [if_neg h]
      obtain ⟨hl, hf⟩ := ih
      refine ⟨by simpa using hl, ?_⟩
      rw [List.length_cons, List.take_succ_cons]
      exact List.Forall₂.cons (track_le_refl a) hf

/-- Processing pairs whose durations all parse non-negative only grows the
registry. -/
theorem registry_le_process_pairs (label_dict : List (Str × Str))
    (pairs : List (Str × Str)) (tracks : List TrackInfo) (errors : List Diag)
    (h : ∀ p ∈ pairs, 0 ≤ (parse_duration p.2).getD 0) :
    registry_le tracks (process_pairs label_dict pairs tracks errors).1 := by
  induction pairs generalizing tracks errors with
  | nil => exact registry_le_refl tracks
  | cons p rest ih =>
    obtain ⟨track, dur⟩ := p
    cases hpd : parse_duration dur with
    | none =>
      simp only [process_pairs, hpd]
      exact ih _ _ fun q hq => h q (by simp [hq])
    | some dd =>
      simp only [process_pairs, hpd]
      have hdd : 0 ≤ dd := by
        have := h (track, dur) (by simp)
        rwa [hpd, Option.getD_some] at this
      exact registry_le_trans
        (registry_le_add_or_update tracks _ _ _ dd _ hdd)
        (ih _ _ fun q hq => h q (by simp [hq]))

/-- Claim C9, amended: provided every duration that parses is non-negative
(which holds for all well-formed duration strings but NOT for all inputs,
since the float grammar accepts a sign), a present duration is monotonically
non-decreasing across the updates of a parse pass: a single upsert and any
run of pair processing leave every existing record in place with its
duration intact or increased, never removed. -/
theorem duration_monotone_of_nonneg :
    (∀ (tracks : List TrackInfo) (index titel kuenstler : Str) (d : ℚ) (lc : Str),
        0 ≤ d →
        registry_le tracks (add_or_update_track tracks index titel kuenstler d lc)) ∧
      (∀ (label_dict : List (Str × Str)) (pairs : List (Str × Str))
          (tracks : List TrackInfo) (errors : List Diag),
        (∀ p ∈ pairs, 0 ≤ (parse_duration p.2).getD 0) →
        registry_le tracks (process_pairs label_dict pairs tracks errors).1) :=
  ⟨fun tracks i t k d lc hd => registry_le_add_or_update tracks i t k d lc hd,
   fun dict pairs tracks errors h => registry_le_process_pairs dict pairs tracks errors h⟩

/-- Witness for C9's amended theorem: processing one non-negative pair
against an empty registry. -/
theorem duration_monotone_of_nonneg_witness :
    registry_le []
      (process_pairs [] [(['A', '1'], natToDigits 1 ++ ':' :: [digitChar 0, digitChar 0])]
        [] []).1 :=
  duration_monotone_of_nonneg.2 []
    [(['A', '1'], natToDigits 1 ++ ':' :: [digitChar 0, digitChar 0])] [] []
    (by
      intro p hp
      rw [List.mem_singleton] at hp
      subst hp
      rw [parse_duration_canonical 1 0 0 (by decide) (by decide), Option.getD_some]
      positivity)

/-- Value of the float parser on a negated digits-dot-digits string. -/
theorem parseRat_neg_digits (ip fp : Str) (hip : ip ≠ [])
    (hipd : ∀ c ∈ ip, c.isDigit = true) (hfpd : ∀ c ∈ fp, c.isDigit = true) :
    parseRat ('-' :: (ip ++ '.' :: fp)) =
      some (-((digitsVal ip : ℚ) + (digitsVal fp : ℚ) / 10 ^ fp.length)) := by
  obtain ⟨c0, ipr, rfl⟩ : ∃ c0 ipr, ip = c0 :: ipr := by
    cases ip with
    | nil => exact absurd rfl hip
    | cons a l => exact ⟨a, l, rfl⟩
  have htw : ((c0 :: ipr) ++ '.' :: fp).takeWhile Char.isDigit = c0 :: ipr := by
    rw [takeWhile_all_append _ _ _ hipd, List.takeWhile_cons_of_neg (by decide),
      List.append_nil]
  have hdw : ((c0 :: ipr) ++ '.' :: fp).dropWhile Char.isDigit = '.' :: fp := by
    rw [dropWhile_all_append _ _ _ hipd, List.dropWhile_cons_of_neg (by decide)]
  have hfw : fp.takeWhile Char.isDigit = fp := List.takeWhile_eq_self_iff.mpr hfpd
  have hfd : fp.dropWhile Char.isDigit = [] := List.dropWhile_eq_nil_iff.mpr hfpd
  simp only [parseRat, List.headD_cons, eq_self_iff_true, true_or, if_true,
    List.tail_cons]
  rw [htw, hdw]
  simp only [List.headD_cons, List.tail_cons, eq_self_iff_true, if_true, hfw, hfd]
  rw [if_neg (by simp), show parseExp [] = some (0 : ℤ) from rfl]
  simp

/-- Parsing the concrete duration text "1:00". -/
theorem parse_duration_one : parse_duration ['1', ':', '0', '0'] = some 1 := by
  have h := parse_duration_canonical 1 0 0 (by decide) (by decide)
  rw [show natToDigits 1 ++ ':' :: [digitChar 0, digitChar 0] = ['1', ':', '0', '0']
    from by decide] at h
  rw [h]
  norm_num

/-- Parsing the concrete duration text "-3:00": the float grammar accepts
the sign, so the parse succeeds with a negative value. -/
theorem parse_duration_neg_three :
    parse_duration ['-', '3', ':', '0', '0'] = some (-3) := by
  simp only [parse_duration]
  rw [show rsplit '.' (colonToDot ['-', '3', ':', '0', '0']) = [['-', '3'], ['0', '0']]
    from by decide]
  rw [if_neg (by decide)]
  simp only [List.getD_cons_zero, List.getD_cons_succ]
  rw [show (['-', '3'] : Str) ++ '.' :: ['0', '0'] = '-' :: (['3'] ++ '.' :: ['0', '0'])
    from rfl]
  rw [parseRat_neg_digits ['3'] ['0', '0'] (by decide) (by decide) (by decide)]
  rw [show digitsVal ['3'] = 3 from by decide, show digitsVal ['0', '0'] = 0 from by decide]
  norm_num

/-- Counterexample to C9 as stated: durations are NOT monotonically
non-decreasing on all inputs.  The track "A1 T" first accumulates duration
1 (from "1:00"); a second pair for the same triple with duration text
"-3:00" parses (the float grammar accepts a sign) and the accumulation
DECREASES the stored duration from 1 to 1 + -3 = -2 < 1. -/
theorem duration_decrease_counterexample :
    (process_pairs [] [(['A', '1', ' ', 'T'], ['1', ':', '0', '0'])] [] []).1 =
        [⟨['a', '1'], ['t'], [], some 1, []⟩] ∧
      (process_pairs [] [(['A', '1', ' ', 'T'], ['1', ':', '0', '0']),
          (['A', '1', ' ', 'T'], ['-', '3', ':', '0', '0'])] [] []).1 =
        [⟨['a', '1'], ['t'], [], some (1 + -3), []⟩] ∧
      ((1 + -3 : ℚ) < 1) := by
  have hpt : parse_track_filename ['A', '1', ' ', 'T'] = (['a', '1'], ['t'], ([] : Str)) := by
    decide
  refine ⟨?_, ?_, by norm_num⟩
  · simp only [process_pairs, parse_duration_one, hpt, add_or_update_track,
      find_label_code]
  · simp only [process_pairs, parse_duration_one, parse_duration_neg_three, hpt,
      add_or_update_track, find_label_code]
    simp

end Gema
